import Mathlib

/-!
Verification of the range splitting core (`src/range.rs`).

Machine integers of width `w` (signed or unsigned, two's complement) are
modelled as mathematical integers together with explicit wrapping
functions; `usize` is treated as an unbounded natural for indexing (the
claims constrain it by the interval's exact length).  The two producer
families of the source are embedded directly:

* the indexed family (`Producer::split_at` for the narrow / pointer-width
  types), generic over the width `w` and signedness of the element type;
* the unindexed family (`RangeIter::len` and `UnindexedProducer::split`
  for the 64-bit types `u64` / `i64`).
-/

namespace RayonRange

/-- Unsigned wrap: reduce an integer into `[0, 2^w)`. Models `as uN`
truncation and unsigned wrapping arithmetic. -/
def uwrap (w : Nat) (x : Int) : Int := x % (2 ^ w : Int)

/-- Signed two's-complement wrap: reduce an integer into
`[-2^(w-1), 2^(w-1))`. Models `as iN` truncation and signed wrapping
arithmetic. -/
def swrap (w : Nat) (x : Int) : Int :=
  uwrap w (x + 2 ^ (w - 1)) - 2 ^ (w - 1)

/-- Wrap into the value range of the machine type of width `w`,
signed or unsigned. -/
def wrap (w : Nat) (signed : Bool) (x : Int) : Int :=
  if signed then swrap w x else uwrap w x

/-- Smallest representable value of the machine type. -/
def lowBound (w : Nat) (signed : Bool) : Int :=
  if signed then -(2 ^ (w - 1)) else 0

/-- One past the largest representable value of the machine type. -/
def highBound (w : Nat) (signed : Bool) : Int :=
  if signed then 2 ^ (w - 1) else 2 ^ w

/-- `x` is a representable value of the machine type of width `w`. -/
def validVal (w : Nat) (signed : Bool) (x : Int) : Prop :=
  lowBound w signed ≤ x ∧ x < highBound w signed

instance (w : Nat) (signed : Bool) (x : Int) : Decidable (validVal w signed x) := by
  unfold validVal; infer_instance

/-- `T::wrapping_add`. -/
def wrapping_add (w : Nat) (signed : Bool) (a b : Int) : Int :=
  wrap w signed (a + b)

/-- `T::wrapping_sub`. -/
def wrapping_sub (w : Nat) (signed : Bool) (a b : Int) : Int :=
  wrap w signed (a - b)

/-- `RangeIter { range: Range { start, end } }` — the half-open interval
`[start, end)`.  (`end` is a Lean keyword, so the field is `stop`.) -/
structure RangeIter where
  start : Int
  stop : Int
deriving DecidableEq, Repr

/-- `Range<T>::len()` for the indexed (`ExactSizeIterator`) types:
`end - start` when `start < end`, `0` otherwise. -/
def rangeLen (r : RangeIter) : Nat := (r.stop - r.start).toNat

/-- `index as T`, the cast of a `usize` index to the element type `T`. -/
def usizeAsT (w : Nat) (signed : Bool) (index : Nat) : Int :=
  wrap w signed (index : Int)

/-- `Producer::split_at` of the indexed family (source lines 86-94):
```
assert!(index <= self.range.len());
let mid = self.range.start.wrapping_add(index as $t);
let left = self.range.start .. mid;
let right = mid .. self.range.end;
```
The `assert!` failure is modelled as `none`. -/
def split_at (w : Nat) (signed : Bool) (r : RangeIter) (index : Nat) :
    Option (RangeIter × RangeIter) :=
  if index ≤ rangeLen r then
    let mid := wrapping_add w signed r.start (usizeAsT w signed index)
    some (⟨r.start, mid⟩, ⟨mid, r.stop⟩)
  else
    none

/-- `RangeIter::<u64/i64>::len` (source lines 102-109):
```
if end > start { end.wrapping_sub(start) as u64 } else { 0 }
```
The result is a `u64` value, represented as an `Int` in `[0, 2^64)`. -/
def len64 (signed : Bool) (r : RangeIter) : Int :=
  if r.stop > r.start then uwrap 64 (wrapping_sub 64 signed r.stop r.start) else 0

/-- `UnindexedProducer::split` of the unindexed family (source lines 125-135):
```
let index = self.len() / 2;
if index > 0 {
    let mid = self.range.start.wrapping_add(index as $t);
    let right = mid .. self.range.end;
    self.range.end = mid;
    (self, Some(RangeIter { range: right }))
} else {
    (self, None)
}
```
-/
def split (signed : Bool) (r : RangeIter) : RangeIter × Option RangeIter :=
  let index := len64 signed r / 2
  if index > 0 then
    let mid := wrapping_add 64 signed r.start (wrap 64 signed index)
    (⟨r.start, mid⟩, some ⟨mid, r.stop⟩)
  else
    (r, none)

/-- The ascending block of `n` consecutive integers starting at `s`. -/
def enumFrom : Int → Nat → List Int
  | _, 0 => []
  | s, n + 1 => s :: enumFrom (s + 1) n

/-- The sequential enumeration of the interval `[start, stop)`: the list
produced by draining `Range<T>` as an `Iterator`. -/
def toSeq (r : RangeIter) : List Int :=
  enumFrom r.start (r.stop - r.start).toNat

/-- Recursively split an interval until every piece signals `None`
(is indivisible); the resulting leaves in left-to-right interval order.
This is the splitting process the work-stealing scheduler drives; it is
well-defined because both pieces of a dividing `split` have a strictly
smaller `len()`. -/
def leaves (signed : Bool) (r : RangeIter) : List RangeIter :=
  match h : split signed r with
  | (l, none) => [l]
  | (l, some rr) => leaves signed l ++ leaves signed rr
termination_by (len64 signed r).toNat
decreasing_by
  all_goals
    rcases r with ⟨s, e⟩
    simp only [split] at h
    split_ifs at h with hpos
    · simp only [Prod.mk.injEq, Option.some.injEq] at h
      obtain ⟨h1, h2⟩ := h
      subst h1
      subst h2
      simp only [len64, wrapping_add, wrapping_sub, wrap, swrap, uwrap] at hpos ⊢
      cases signed <;>
        norm_num at hpos ⊢ <;>
        split_ifs at hpos ⊢ <;>
        omega
    · simp at h

/-! ### Basic facts about the wrapping arithmetic -/

theorem two_pow_pos (w : Nat) : (0 : Int) < 2 ^ w := by positivity

theorem uwrap_nonneg (w : Nat) (x : Int) : 0 ≤ uwrap w x :=
  Int.emod_nonneg x (by positivity)

theorem uwrap_lt (w : Nat) (x : Int) : uwrap w x < 2 ^ w :=
  Int.emod_lt_of_pos x (two_pow_pos w)

theorem uwrap_eq_self {w : Nat} {x : Int} (h0 : 0 ≤ x) (h1 : x < 2 ^ w) :
    uwrap w x = x :=
  Int.emod_eq_of_lt h0 h1

theorem uwrap_emod (w : Nat) (x : Int) : uwrap w x % 2 ^ w = x % 2 ^ w :=
  Int.emod_emod_of_dvd x dvd_rfl

theorem two_pow_split {w : Nat} (hw : 0 < w) :
    (2 : Int) ^ w = 2 * 2 ^ (w - 1) := by
  obtain ⟨k, rfl⟩ : ∃ k, w = k + 1 := ⟨w - 1, by omega⟩
  rw [pow_succ]
  simp only [Nat.add_sub_cancel]
  ring

theorem swrap_emod {w : Nat} (hw : 0 < w) (x : Int) :
    swrap w x % 2 ^ w = x % 2 ^ w := by
  unfold swrap uwrap
  set H : Int := 2 ^ (w - 1) with hH
  have h2 : (2 : Int) ^ w = 2 * H := two_pow_split hw
  have hHm : H % 2 ^ w = H := by
    apply Int.emod_eq_of_lt
    · positivity
    · rw [h2]; nlinarith [two_pow_pos (w - 1)]
  calc ((x + H) % 2 ^ w - H) % 2 ^ w
      = ((x + H) % 2 ^ w - H % 2 ^ w) % 2 ^ w := by rw [hHm]
    _ = ((x + H) - H) % 2 ^ w := (Int.sub_emod _ _ _).symm
    _ = x % 2 ^ w := by ring_nf

theorem swrap_bounds {w : Nat} (hw : 0 < w) (x : Int) :
    -(2 ^ (w - 1)) ≤ swrap w x ∧ swrap w x < 2 ^ (w - 1) := by
  unfold swrap
  have h1 := uwrap_nonneg w (x + 2 ^ (w - 1))
  have h2 := uwrap_lt w (x + 2 ^ (w - 1))
  rw [two_pow_split hw] at h2
  constructor <;> omega

theorem swrap_eq_self {w : Nat} {x : Int} (hw : 0 < w)
    (h0 : -(2 ^ (w - 1)) ≤ x) (h1 : x < 2 ^ (w - 1)) :
    swrap w x = x := by
  unfold swrap
  rw [uwrap_eq_self (by omega)]
  · omega
  · rw [two_pow_split hw]; omega

theorem wrap_emod {w : Nat} (hw : 0 < w) (signed : Bool) (x : Int) :
    wrap w signed x % 2 ^ w = x % 2 ^ w := by
  unfold wrap
  cases signed with
  | false => exact uwrap_emod w x
  | true => exact swrap_emod hw x

theorem wrap_eq_of_valid {w : Nat} {signed : Bool} {x : Int} (hw : 0 < w)
    (h : validVal w signed x) : wrap w signed x = x := by
  obtain ⟨h0, h1⟩ := h
  unfold wrap lowBound highBound at *
  cases signed with
  | false => simp only [if_false, Bool.false_eq_true] at *; exact uwrap_eq_self h0 h1
  | true => simp only [if_true] at *; exact swrap_eq_self hw h0 h1

theorem wrap_congr {w : Nat} {signed : Bool} {x y : Int}
    (h : x % 2 ^ w = y % 2 ^ w) : wrap w signed x = wrap w signed y := by
  unfold wrap swrap uwrap
  have h' : (x + 2 ^ (w - 1)) % 2 ^ w = (y + 2 ^ (w - 1)) % 2 ^ w := by
    rw [Int.add_emod, h, ← Int.add_emod]
  cases signed <;> simp [h, h']

/-- Collapsing the double wrap in `start.wrapping_add(index as T)`. -/
theorem wrapping_add_cast {w : Nat} (hw : 0 < w) (signed : Bool) (a b : Int) :
    wrap w signed (a + wrap w signed b) = wrap w signed (a + b) := by
  apply wrap_congr
  rw [Int.add_emod, wrap_emod hw, ← Int.add_emod]

theorem uwrap_wrap (signed : Bool) (y : Int) :
    uwrap 64 (wrap 64 signed y) = uwrap 64 y := by
  unfold uwrap
  exact wrap_emod (by norm_num) signed y

/-! ### Enumeration lemmas -/

theorem enumFrom_append (a : Nat) : ∀ (s : Int) (b : Nat),
    enumFrom s (a + b) = enumFrom s a ++ enumFrom (s + a) b := by
  induction a with
  | zero => intro s b; simp [enumFrom]
  | succ k ih =>
    intro s b
    have hk : k + 1 + b = (k + b) + 1 := by omega
    rw [hk]
    show s :: enumFrom (s + 1) (k + b) = (s :: enumFrom (s + 1) k) ++ enumFrom (s + (k + 1 : Nat)) b
    rw [ih (s + 1) b]
    have : (s + 1) + (k : Int) = s + ((k : Nat) + 1 : Nat) := by push_cast; ring
    rw [this]
    simp

/-! ### Canonical forms for the unindexed operations -/

/-- `len64` does not depend on the signedness once reduced mod `2^64`. -/
theorem len64_eq (signed : Bool) (r : RangeIter) :
    len64 signed r = if r.start < r.stop then uwrap 64 (r.stop - r.start) else 0 := by
  unfold len64 wrapping_sub
  rw [uwrap_wrap]

theorem len64_bounds (signed : Bool) (r : RangeIter) :
    0 ≤ len64 signed r ∧ len64 signed r < 2 ^ 64 := by
  rw [len64_eq]
  split
  · exact ⟨uwrap_nonneg _ _, uwrap_lt _ _⟩
  · exact ⟨le_refl 0, two_pow_pos 64⟩

/-- The midpoint computed by a split is congruent to `start + index`
modulo `2^w`, whatever the signedness. -/
theorem mid_emod {w : Nat} (hw : 0 < w) (signed : Bool) (s i : Int) :
    (wrapping_add w signed s (wrap w signed i)) % 2 ^ w = (s + i) % 2 ^ w := by
  unfold wrapping_add
  rw [wrap_emod hw, Int.add_emod, wrap_emod hw, ← Int.add_emod]

/-- Shape of the dividing branch of `split`, with no validity assumptions:
the piece lengths are bounded by `index` and `len - index`, hence both
strictly decrease. -/
theorem split_some_dec {signed : Bool} {r l rr : RangeIter}
    (h : split signed r = (l, some rr)) :
    0 < len64 signed r / 2 ∧
    len64 signed l ≤ len64 signed r / 2 ∧
    len64 signed rr ≤ len64 signed r - len64 signed r / 2 ∧
    len64 signed l < len64 signed r ∧ len64 signed rr < len64 signed r := by
  obtain ⟨s, e⟩ := r
  have hL := len64_bounds signed ⟨s, e⟩
  have hm : ((2 : Int) ^ 64) = 18446744073709551616 := by norm_num
  set L : Int := len64 signed ⟨s, e⟩ with hLdef
  simp only [split] at h
  by_cases hpos : L / 2 > 0
  · rw [if_pos hpos] at h
    simp only [Prod.mk.injEq, Option.some.injEq] at h
    obtain ⟨hl, hr⟩ := h
    subst hl; subst hr
    set mid : Int := wrapping_add 64 signed s (wrap 64 signed (L / 2)) with hmid
    have hmide : mid % 2 ^ 64 = (s + L / 2) % 2 ^ 64 := mid_emod (by norm_num) signed s (L / 2)
    -- the length produced by the `len()` of each piece
    have hstop : e > s := by
      by_contra hc
      have : L = 0 := by rw [hLdef, len64_eq]; simp; omega
      omega
    have hLe : L = uwrap 64 (e - s) := by
      rw [hLdef, len64_eq]; simp [hstop]
    have hleft : len64 signed ⟨s, mid⟩ ≤ L / 2 := by
      rw [len64_eq]
      simp only
      split
      · unfold uwrap
        rw [hm] at *
        omega
      · omega
    have hright : len64 signed ⟨mid, e⟩ ≤ L - L / 2 := by
      rw [len64_eq]
      simp only
      unfold uwrap at hLe
      split
      · unfold uwrap
        rw [hm] at *
        omega
      · omega
    have hLs : 2 ≤ L := by omega
    have hlb := (len64_bounds signed ⟨s, mid⟩).1
    have hrb := (len64_bounds signed ⟨mid, e⟩).1
    refine ⟨hpos, hleft, hright, by omega, by omega⟩
  · rw [if_neg hpos] at h
    simp at h

/-! ### The 64-bit domains with valid (representable) endpoints -/

theorem validVal64_iff (signed : Bool) (x : Int) :
    validVal 64 signed x ↔
      (if signed then -(9223372036854775808 : Int) ≤ x ∧ x < 9223372036854775808
       else 0 ≤ x ∧ x < 18446744073709551616) := by
  unfold validVal lowBound highBound
  cases signed <;> norm_num

theorem len64_of_valid {signed : Bool} {r : RangeIter}
    (hs : validVal 64 signed r.start) (he : validVal 64 signed r.stop) :
    len64 signed r = if r.start < r.stop then r.stop - r.start else 0 := by
  rw [len64_eq]
  split
  · apply uwrap_eq_self
    · omega
    · rw [validVal64_iff] at hs he
      have hm : ((2 : Int) ^ 64) = 18446744073709551616 := by norm_num
      rw [hm]
      cases signed <;> simp_all <;> omega
  · rfl

/-- The non-dividing branch: `split` returns `(self, None)` exactly when
`len() / 2 == 0`, and then the interval was of length at most 1. -/
theorem split_snd_none {signed : Bool} {r l : RangeIter}
    (h : split signed r = (l, none)) : l = r ∧ len64 signed r ≤ 1 := by
  have hL := len64_bounds signed r
  simp only [split] at h
  by_cases hpos : len64 signed r / 2 > 0
  · rw [if_pos hpos] at h
    simp at h
  · rw [if_neg hpos] at h
    simp only [Prod.mk.injEq] at h
    exact ⟨h.1.symm, by omega⟩

theorem split_of_small {signed : Bool} {r : RangeIter}
    (h : len64 signed r ≤ 1) : split signed r = (r, none) := by
  have hL := len64_bounds signed r
  simp only [split]
  rw [if_neg (by omega)]

/-- Full characterisation of a dividing `split` on representable
endpoints: the midpoint is the exact (non-wrapped) `start + len/2`, it is
itself representable, and the two pieces have lengths `len/2` and
`len - len/2`. -/
theorem split_valid_char {signed : Bool} {r : RangeIter}
    (hs : validVal 64 signed r.start) (he : validVal 64 signed r.stop)
    (h2 : 2 ≤ len64 signed r) :
    r.start < r.stop ∧
    len64 signed r = r.stop - r.start ∧
    validVal 64 signed (r.start + (r.stop - r.start) / 2) ∧
    split signed r = (⟨r.start, r.start + (r.stop - r.start) / 2⟩,
                      some ⟨r.start + (r.stop - r.start) / 2, r.stop⟩) ∧
    len64 signed ⟨r.start, r.start + (r.stop - r.start) / 2⟩ = (r.stop - r.start) / 2 ∧
    len64 signed ⟨r.start + (r.stop - r.start) / 2, r.stop⟩ =
      (r.stop - r.start) - (r.stop - r.start) / 2 := by
  have hlen := len64_of_valid hs he
  have hlt : r.start < r.stop := by
    by_contra hc
    rw [if_neg hc] at hlen
    omega
  rw [if_pos hlt] at hlen
  set d : Int := r.stop - r.start with hd
  have hd2 : 2 ≤ d := by omega
  have hmidv : validVal 64 signed (r.start + d / 2) := by
    rw [validVal64_iff] at hs he ⊢
    cases signed <;> simp_all <;> omega
  have hmid : wrapping_add 64 signed r.start (wrap 64 signed (len64 signed r / 2)) =
      r.start + d / 2 := by
    rw [hlen]
    unfold wrapping_add
    rw [wrapping_add_cast (by norm_num)]
    exact wrap_eq_of_valid (by norm_num) hmidv
  have hsplit : split signed r = (⟨r.start, r.start + d / 2⟩,
      some ⟨r.start + d / 2, r.stop⟩) := by
    simp only [split]
    rw [if_pos (by omega), hmid]
  have hll : len64 signed ⟨r.start, r.start + d / 2⟩ = d / 2 := by
    rw [@len64_of_valid signed ⟨r.start, r.start + d / 2⟩ hs hmidv]
    simp only
    rw [if_pos (by omega)]
    ring
  have hrl : len64 signed ⟨r.start + d / 2, r.stop⟩ = d - d / 2 := by
    rw [@len64_of_valid signed ⟨r.start + d / 2, r.stop⟩ hmidv he]
    simp only
    rw [if_pos (by omega)]
    ring
  exact ⟨hlt, hlen, hmidv, hsplit, hll, hrl⟩

/-! ### Unfolding equations for `leaves` -/

theorem leaves_of_none {signed : Bool} {r l : RangeIter}
    (h : split signed r = (l, none)) : leaves signed r = [l] := by
  rw [leaves.eq_def]
  split
  · rename_i l' heq
    rw [h] at heq
    cases heq
    rfl
  · rename_i l' rr heq
    rw [h] at heq
    cases heq

theorem leaves_of_some {signed : Bool} {r l rr : RangeIter}
    (h : split signed r = (l, some rr)) :
    leaves signed r = leaves signed l ++ leaves signed rr := by
  rw [leaves.eq_def]
  split
  · rename_i l' heq
    rw [h] at heq
    cases heq
  · rename_i l' rr' heq
    rw [h] at heq
    cases heq
    rfl

/-- Every leaf produced by the recursive splitting process has length at
most 1 (no validity assumptions needed). -/
theorem leaves_len_le (signed : Bool) :
    ∀ (n : Nat) (r : RangeIter), (len64 signed r).toNat ≤ n →
      ∀ p ∈ leaves signed r, len64 signed p ≤ 1 := by
  intro n
  induction n with
  | zero =>
    intro r hr p hp
    have hL := len64_bounds signed r
    have h0 : len64 signed r ≤ 1 := by omega
    rw [leaves_of_none (split_of_small h0)] at hp
    simp at hp
    subst hp
    exact h0
  | succ k ih =>
    intro r hr p hp
    rcases hsp : split signed r with ⟨l, o⟩
    cases o with
    | none =>
      rw [leaves_of_none hsp] at hp
      simp at hp
      subst hp
      obtain ⟨rfl, hle⟩ := split_snd_none hsp
      exact hle
    | some rr =>
      rw [leaves_of_some hsp] at hp
      have hd := split_some_dec hsp
      have hlb := (len64_bounds signed l).1
      have hrb := (len64_bounds signed rr).1
      rcases List.mem_append.mp hp with hmem | hmem
      · exact ih l (by omega) p hmem
      · exact ih rr (by omega) p hmem

/-- Partition law for the recursive splitting process on representable
endpoints: draining the leaves left to right drains the original
interval. -/
theorem leaves_join_eq (signed : Bool) :
    ∀ (n : Nat) (r : RangeIter), (len64 signed r).toNat ≤ n →
      validVal 64 signed r.start → validVal 64 signed r.stop →
      ((leaves signed r).map toSeq).flatten = toSeq r := by
  intro n
  induction n with
  | zero =>
    intro r hr hs he
    have hL := len64_bounds signed r
    have h0 : len64 signed r ≤ 1 := by omega
    rw [leaves_of_none (split_of_small h0)]
    simp
  | succ k ih =>
    intro r hr hs he
    have hL := len64_bounds signed r
    by_cases h1 : len64 signed r ≤ 1
    · rw [leaves_of_none (split_of_small h1)]
      simp
    · have h2 : 2 ≤ len64 signed r := by omega
      obtain ⟨hlt, hlen, hmidv, hsplit, hll, hrl⟩ := split_valid_char hs he h2
      rw [leaves_of_some hsplit]
      rw [List.map_append, List.flatten_append]
      rw [ih ⟨r.start, r.start + (r.stop - r.start) / 2⟩ (by omega) hs hmidv,
          ih ⟨r.start + (r.stop - r.start) / 2, r.stop⟩ (by omega) hmidv he]
      -- concatenating the two enumerations
      simp only [toSeq]
      set d : Int := r.stop - r.start with hdd
      have ha : (r.start + d / 2 - r.start).toNat = (d / 2).toNat := by omega
      have hb : (r.stop - (r.start + d / 2)).toNat = (d - d / 2).toNat := by omega
      rw [ha, hb]
      have hn : (d.toNat) = (d / 2).toNat + (d - d / 2).toNat := by omega
      have hcast : r.start + ((d / 2).toNat : Int) = r.start + d / 2 := by
        rw [Int.toNat_of_nonneg (by omega)]
      rw [← hcast]
      have hstep := enumFrom_append (d / 2).toNat r.start (d - d / 2).toNat
      rw [← hstep, ← hn]

/-! ### The indexed family on representable endpoints -/

theorem split_at_mid_eq {w : Nat} {signed : Bool} {r : RangeIter} {index : Nat}
    (hw : 0 < w) (hs : validVal w signed r.start) (he : validVal w signed r.stop)
    (hle : r.start ≤ r.stop) (hidx : index ≤ rangeLen r) :
    wrapping_add w signed r.start (usizeAsT w signed index) = r.start + index := by
  have hv : validVal w signed (r.start + index) := by
    obtain ⟨hs1, hs2⟩ := hs
    obtain ⟨he1, he2⟩ := he
    have hcast : (index : Int) ≤ r.stop - r.start := by
      unfold rangeLen at hidx
      omega
    exact ⟨by omega, by omega⟩
  unfold wrapping_add usizeAsT
  rw [wrapping_add_cast hw]
  exact wrap_eq_of_valid hw hv

theorem split_at_valid_eq {w : Nat} {signed : Bool} {r : RangeIter} {index : Nat}
    (hw : 0 < w) (hs : validVal w signed r.start) (he : validVal w signed r.stop)
    (hle : r.start ≤ r.stop) (hidx : index ≤ rangeLen r) :
    split_at w signed r index =
      some (⟨r.start, (r.start + index : Int)⟩, ⟨(r.start + index : Int), r.stop⟩) := by
  simp only [split_at]
  rw [if_pos hidx, split_at_mid_eq hw hs he hle hidx]

theorem split_at_partition {r : RangeIter} {index : Nat}
    (hle : r.start ≤ r.stop) (hidx : index ≤ rangeLen r) :
    toSeq ⟨r.start, (r.start + index : Int)⟩ ++ toSeq ⟨(r.start + index : Int), r.stop⟩ =
      toSeq r := by
  unfold rangeLen at hidx
  simp only [toSeq]
  have ha : ((r.start + index : Int) - r.start).toNat = index := by omega
  have hb : (r.stop - (r.start + index : Int)).toNat = (r.stop - r.start).toNat - index := by
    omega
  rw [ha, hb]
  have hstep := enumFrom_append index r.start ((r.stop - r.start).toNat - index)
  have hn : index + ((r.stop - r.start).toNat - index) = (r.stop - r.start).toNat := by omega
  rw [hn] at hstep
  exact hstep.symm

/-! ### The claims -/

/-- C1: Indexed partition law.  For every indexed-family interval `[s,e)`
with representable endpoints, `s ≤ e`, and every `index ≤ exactLength`,
`split_at index` returns `L = [s, s.wrapping_add(index))` and
`R = [s.wrapping_add(index), e)`, and the sequential enumeration of `L`
followed by that of `R` equals the sequential enumeration of `[s,e)`. -/
theorem indexed_partition_law (w : Nat) (signed : Bool) (r : RangeIter) (index : Nat)
    (hw : 0 < w) (hs : validVal w signed r.start) (he : validVal w signed r.stop)
    (hle : r.start ≤ r.stop) (hidx : index ≤ rangeLen r) :
    split_at w signed r index =
      some (⟨r.start, wrapping_add w signed r.start (usizeAsT w signed index)⟩,
            ⟨wrapping_add w signed r.start (usizeAsT w signed index), r.stop⟩) ∧
    toSeq ⟨r.start, wrapping_add w signed r.start (usizeAsT w signed index)⟩ ++
        toSeq ⟨wrapping_add w signed r.start (usizeAsT w signed index), r.stop⟩ =
      toSeq r := by
  rw [split_at_mid_eq hw hs he hle hidx]
  exact ⟨split_at_valid_eq hw hs he hle hidx, split_at_partition hle hidx⟩

/-- Witness for C1: `u32` interval `[0,10)` split at `index = 4`. -/
theorem indexed_partition_law_witness :
    split_at 32 false ⟨0, 10⟩ 4 = some (⟨0, 4⟩, ⟨4, 10⟩) ∧
    toSeq ⟨0, 4⟩ ++ toSeq ⟨4, 10⟩ = toSeq ⟨0, 10⟩ := by
  have hm : wrapping_add 32 false (0 : Int) (usizeAsT 32 false 4) = 4 := by decide
  rw [← hm]
  exact indexed_partition_law 32 false ⟨0, 10⟩ 4 (by norm_num) (by decide) (by decide)
    (by norm_num) (by decide)

/-- C2: Raises-iff for the single error class: `split_at` hits its
`assert!` (modelled as `none`) exactly when the supplied index exceeds the
interval's exact length; for `index ≤ exactLength` it returns normally.
(The remaining operations — unindexed `len`, unindexed `split`, and the
sequential enumeration — are embedded as total functions, mirroring the
panic-free wrapping arithmetic of the source.) -/
theorem split_at_raises_iff (w : Nat) (signed : Bool) (r : RangeIter) (index : Nat) :
    split_at w signed r index = none ↔ rangeLen r < index := by
  simp only [split_at]
  split_ifs with h
  · have hnot : ¬ (rangeLen r < index) := by omega
    simp [hnot]
  · have hyes : rangeLen r < index := by omega
    simp [hyes]

/-- C3: Unindexed length correctness: on representable 64-bit endpoints,
`len()` returns `0` when `end ≤ start` and the exact difference
`end - start` otherwise, with no loss even when the difference exceeds
the signed 64-bit range. -/
theorem len64_correct (signed : Bool) (r : RangeIter)
    (hs : validVal 64 signed r.start) (he : validVal 64 signed r.stop) :
    (r.stop ≤ r.start → len64 signed r = 0) ∧
    (r.start < r.stop → len64 signed r = r.stop - r.start) := by
  have h := len64_of_valid hs he
  constructor <;> intro hc
  · rw [h, if_neg (by omega)]
  · rw [h, if_pos hc]

/-- Witness for C3: the maximal-width `i64` interval, whose length
`2^64 - 1` exceeds the signed 64-bit range. -/
theorem len64_correct_witness :
    len64 true ⟨-9223372036854775808, 9223372036854775807⟩ =
      (9223372036854775807 : Int) - (-9223372036854775808) :=
  (len64_correct true ⟨-9223372036854775808, 9223372036854775807⟩
    (by decide) (by decide)).2 (by norm_num)

/-- C4: Unindexed split law: `split()` computes `index = len() / 2`; if
`index = 0` (in particular whenever the length is 0 or 1, inverted
intervals included) it returns `(self unchanged, None)`, and otherwise it
returns `left = [start, start.wrapping_add(index))` (the mutated self)
and `Some right = Some [mid, end)`. -/
theorem unindexed_split_law (signed : Bool) (r : RangeIter) :
    (len64 signed r / 2 = 0 → split signed r = (r, none)) ∧
    (len64 signed r ≤ 1 → split signed r = (r, none)) ∧
    (0 < len64 signed r / 2 →
      split signed r =
        (⟨r.start, wrapping_add 64 signed r.start (wrap 64 signed (len64 signed r / 2))⟩,
         some ⟨wrapping_add 64 signed r.start (wrap 64 signed (len64 signed r / 2)),
               r.stop⟩)) := by
  refine ⟨?_, split_of_small, ?_⟩
  · intro h0
    simp only [split]
    rw [if_neg (by omega)]
  · intro hpos
    simp only [split]
    rw [if_pos hpos]

/-- Witness for C4: the inverted `u64` interval `[5,2)` is indivisible. -/
theorem unindexed_split_law_witness :
    split false ⟨5, 2⟩ = (⟨5, 2⟩, none) :=
  (unindexed_split_law false ⟨5, 2⟩).2.1 (by decide)

/-- C5: Balance: on representable 64-bit endpoints with length at least 2,
`split()` divides, and the two pieces have equal lengths when the original
length is even and lengths differing by exactly one when it is odd. -/
theorem split_balance (signed : Bool) (r : RangeIter)
    (hs : validVal 64 signed r.start) (he : validVal 64 signed r.stop)
    (h2 : 2 ≤ len64 signed r) :
    ∃ l rr : RangeIter, split signed r = (l, some rr) ∧
      (len64 signed r % 2 = 0 → len64 signed l = len64 signed rr) ∧
      (len64 signed r % 2 = 1 → len64 signed rr = len64 signed l + 1) := by
  obtain ⟨hlt, hlen, hmidv, hsplit, hll, hrl⟩ := split_valid_char hs he h2
  refine ⟨_, _, hsplit, ?_, ?_⟩ <;> intro hp <;> rw [hll, hrl] <;> omega

/-- Witness for C5: the odd-length `u64` interval `[0,5)`. -/
theorem split_balance_witness :
    ∃ l rr : RangeIter, split false ⟨0, 5⟩ = (l, some rr) ∧
      (len64 false ⟨0, 5⟩ % 2 = 0 → len64 false l = len64 false rr) ∧
      (len64 false ⟨0, 5⟩ % 2 = 1 → len64 false rr = len64 false l + 1) :=
  split_balance false ⟨0, 5⟩ (by decide) (by decide) (by decide)

/-- C6: Overflow safety of the midpoint: for every width and signedness,
a permitted `split_at` returns normally with a midpoint congruent to
`start + index` modulo `2^w`; every dividing unindexed `split` likewise
has its midpoint congruent to `start + len/2` modulo `2^64`; and
concretely, for `u8` and `[250,255)`, `split_at 3` yields `mid = 253`,
`L = [250,253)`, `R = [253,255)`. -/
theorem overflow_safe_midpoint :
    (∀ (w : Nat) (signed : Bool) (r : RangeIter) (index : Nat), 0 < w →
       index ≤ rangeLen r →
       ∃ l rr : RangeIter, split_at w signed r index = some (l, rr) ∧
         l.stop = rr.start ∧ l.stop % 2 ^ w = (r.start + index) % 2 ^ w) ∧
    (∀ (signed : Bool) (r l rr : RangeIter), split signed r = (l, some rr) →
       l.stop % 2 ^ 64 = (r.start + len64 signed r / 2) % 2 ^ 64) ∧
    split_at 8 false ⟨250, 255⟩ 3 = some (⟨250, 253⟩, ⟨253, 255⟩) := by
  refine ⟨?_, ?_, by decide⟩
  · intro w signed r index hw hidx
    refine ⟨⟨r.start, wrapping_add w signed r.start (usizeAsT w signed index)⟩,
            ⟨wrapping_add w signed r.start (usizeAsT w signed index), r.stop⟩,
            ?_, rfl, ?_⟩
    · simp only [split_at]
      rw [if_pos hidx]
    · exact mid_emod hw signed r.start index
  · intro signed r l rr h
    simp only [split] at h
    by_cases hpos : len64 signed r / 2 > 0
    · rw [if_pos hpos] at h
      simp only [Prod.mk.injEq, Option.some.injEq] at h
      obtain ⟨h1, h2⟩ := h
      rw [← h1]
      exact mid_emod (by norm_num) signed r.start (len64 signed r / 2)
    · rw [if_neg hpos] at h
      simp at h

/-- Witness for C6: the `i8` interval `[-128,127)` split at `index = 200`,
where `index as i8` genuinely wraps to a negative value. -/
theorem overflow_safe_midpoint_witness :
    ∃ l rr : RangeIter, split_at 8 true ⟨-128, 127⟩ 200 = some (l, rr) ∧
      l.stop = rr.start ∧
      l.stop % 2 ^ 8 = ((-128 : Int) + ((200 : Nat) : Int)) % 2 ^ 8 :=
  overflow_safe_midpoint.1 8 true ⟨-128, 127⟩ 200 (by norm_num) (by decide)

/-- C7: Unindexed partition law with termination: each dividing `split`
strictly decreases the length of both pieces (so recursive splitting
terminates — `leaves` is well-founded on the length); every leaf has
length at most 1; and on representable endpoints the left-to-right
concatenation of the leaf sequences equals the direct sequential
enumeration of the original interval. -/
theorem unindexed_partition_termination (signed : Bool) (r : RangeIter)
    (hs : validVal 64 signed r.start) (he : validVal 64 signed r.stop) :
    (∀ l rr : RangeIter, split signed r = (l, some rr) →
       len64 signed l < len64 signed r ∧ len64 signed rr < len64 signed r) ∧
    (∀ p ∈ leaves signed r, len64 signed p ≤ 1) ∧
    ((leaves signed r).map toSeq).flatten = toSeq r := by
  refine ⟨?_, leaves_len_le signed (len64 signed r).toNat r le_rfl,
          leaves_join_eq signed (len64 signed r).toNat r le_rfl hs he⟩
  intro l rr h
  have hd := split_some_dec h
  exact ⟨hd.2.2.2.1, hd.2.2.2.2⟩

/-- Witness for C7 on the `u64` interval `[0,5)`. -/
theorem unindexed_partition_termination_witness :
    ((leaves false ⟨0, 5⟩).map toSeq).flatten = toSeq ⟨0, 5⟩ :=
  (unindexed_partition_termination false ⟨0, 5⟩ (by decide) (by decide)).2.2

/-- C8: Scenario 2: `split()` on the `i64` interval `[-5,5)` has length
10 and index 5, and returns `L = [-5,0)` and `Some R = Some [0,5)`. -/
theorem scenario_signed_midpoint :
    len64 true ⟨-5, 5⟩ = 10 ∧ len64 true ⟨-5, 5⟩ / 2 = 5 ∧
    split true ⟨-5, 5⟩ = (⟨-5, 0⟩, some ⟨0, 5⟩) := by decide

/-- C9: Implicit progress invariant: on representable 64-bit endpoints,
whenever `split()` divides, the original length was at least 2 and both
pieces have length at least 1 and strictly smaller than the original. -/
theorem split_progress (signed : Bool) (r l rr : RangeIter)
    (hs : validVal 64 signed r.start) (he : validVal 64 signed r.stop)
    (h : split signed r = (l, some rr)) :
    2 ≤ len64 signed r ∧
    1 ≤ len64 signed l ∧ 1 ≤ len64 signed rr ∧
    len64 signed l < len64 signed r ∧ len64 signed rr < len64 signed r := by
  have hd := split_some_dec h
  have hL := len64_bounds signed r
  have h2 : 2 ≤ len64 signed r := by omega
  obtain ⟨hlt, hlen, hmidv, hsplit, hll, hrl⟩ := split_valid_char hs he h2
  rw [h] at hsplit
  simp only [Prod.mk.injEq, Option.some.injEq] at hsplit
  obtain ⟨h1, h2'⟩ := hsplit
  subst h1
  subst h2'
  rw [hll, hrl]
  omega

/-- Witness for C9: the `u64` interval `[0,2)` splits into `[0,1)` and
`[1,2)`. -/
theorem split_progress_witness :
    2 ≤ len64 false ⟨0, 2⟩ ∧
    1 ≤ len64 false ⟨0, 1⟩ ∧ 1 ≤ len64 false ⟨1, 2⟩ ∧
    len64 false ⟨0, 1⟩ < len64 false ⟨0, 2⟩ ∧ len64 false ⟨1, 2⟩ < len64 false ⟨0, 2⟩ :=
  split_progress false ⟨0, 2⟩ ⟨0, 1⟩ ⟨1, 2⟩ (by decide) (by decide) (by decide)

/-- C10: Implicit frame property: in the dividing case `split()` keeps
`self.start` unchanged, the produced right piece carries the original
`end`, and its `start` is exactly the new `end` of the left piece. -/
theorem split_frame (signed : Bool) (r l rr : RangeIter)
    (h : split signed r = (l, some rr)) :
    l.start = r.start ∧ rr.stop = r.stop ∧ rr.start = l.stop := by
  simp only [split] at h
  by_cases hpos : len64 signed r / 2 > 0
  · rw [if_pos hpos] at h
    simp only [Prod.mk.injEq, Option.some.injEq] at h
    obtain ⟨h1, h2⟩ := h
    rw [← h1, ← h2]
    exact ⟨rfl, rfl, rfl⟩
  · rw [if_neg hpos] at h
    simp at h

/-- Witness for C10 on the `u64` interval `[0,2)`. -/
theorem split_frame_witness :
    (⟨0, 1⟩ : RangeIter).start = (⟨0, 2⟩ : RangeIter).start ∧
    (⟨1, 2⟩ : RangeIter).stop = (⟨0, 2⟩ : RangeIter).stop ∧
    (⟨1, 2⟩ : RangeIter).start = (⟨0, 1⟩ : RangeIter).stop :=
  split_frame false ⟨0, 2⟩ ⟨0, 1⟩ ⟨1, 2⟩ (by decide)

end RayonRange
